import Mathlib

/-!
Verification development for the `ml-kem` repository (src/src/ml_kem.rs plus
src/src/main.rs).  The K-PKE layer and the KEM wrapper are embedded shallowly.
The codec, hashing and sampling helpers live in the repository's `utils`
module, whose source is not part of `src/`; those are modelled from the
specification (each such definition says so in its doc comment).  External
crates (`module_lwe`, `ring_lwe`, `aes_ctr_drbg`) are collaborators specified
only at their interface boundary; they appear either as concrete lattice
arithmetic (matrix-vector products under the reduction polynomial x^n + 1) or
as explicit function parameters.
-/

/-- Parameter set of the scheme: ring degree n, modulus q, module rank k,
noise widths eta_1/eta_2, compression depths du/dv
(mirrors `Parameters` consumed by `ml_kem.rs`). -/
structure Params where
  n : Nat
  q : Nat
  k : Nat
  eta_1 : Nat
  eta_2 : Nat
  du : Nat
  dv : Nat
deriving Repr, DecidableEq

/-- The ML-KEM-768-shaped default parameter set (n=256, q=3329, k=3,
eta1=eta2=2, du=10, dv=4), matching `Parameters::default()` as described by
the spec (n=256, q=3329, k=2 or 3). -/
def defaultParams : Params :=
  { n := 256, q := 3329, k := 3, eta_1 := 2, eta_2 := 2, du := 10, dv := 4 }

/-- Split a list into consecutive chunks of size `w + 1` (the successor
argument keeps the recursion well-founded); the final chunk may be shorter. -/
def chunksPos (w : Nat) : List Nat → List (List Nat)
  | [] => []
  | x :: xs => ((x :: xs).take (w + 1)) :: chunksPos w ((x :: xs).drop (w + 1))
termination_by xs => xs.length
decreasing_by simp; omega

theorem chunksPos_nil (w : Nat) : chunksPos w [] = [] := by
  simp [chunksPos]

theorem chunksPos_cons (w : Nat) (x : Nat) (xs : List Nat) :
    chunksPos w (x :: xs) =
      ((x :: xs).take (w + 1)) :: chunksPos w ((x :: xs).drop (w + 1)) := by
  rw [chunksPos]

theorem chunksPos_append (w : Nat) (xs ys : List Nat) (h : xs.length = w + 1) :
    chunksPos w (xs ++ ys) = xs :: chunksPos w ys := by
  cases xs with
  | nil => simp at h
  | cons a as =>
    rw [List.cons_append, chunksPos_cons, ← List.cons_append a as ys,
      List.take_left' h, List.drop_left' h]

theorem chunksPos_replicate (w m : Nat) :
    chunksPos w (List.replicate ((w + 1) * m) 0) =
      List.replicate m (List.replicate (w + 1) 0) := by
  induction m with
  | zero => simp [chunksPos_nil]
  | succ m ih =>
    have hsplit : (w + 1) * (m + 1) = (w + 1) + (w + 1) * m := by ring
    rw [hsplit, List.replicate_add, chunksPos_append w _ _ (by simp), ih]
    rfl

theorem chunksPos_length (w m : Nat) (xs : List Nat)
    (h : xs.length = (w + 1) * m) : (chunksPos w xs).length = m := by
  induction m generalizing xs with
  | zero =>
    have : xs = [] := by
      cases xs with
      | nil => rfl
      | cons a as => simp at h
    subst this; simp [chunksPos_nil]
  | succ m ih =>
    have hx : xs = xs.take (w + 1) ++ xs.drop (w + 1) := (List.take_append_drop _ _).symm
    have hlen : (xs.take (w + 1)).length = w + 1 := by
      rw [List.length_take]
      have : w + 1 ≤ xs.length := by rw [h]; nlinarith
      omega
    have hdrop : (xs.drop (w + 1)).length = (w + 1) * m := by
      rw [List.length_drop, h]
      have : (w + 1) * (m + 1) = (w + 1) * m + (w + 1) := by ring
      omega
    rw [hx, chunksPos_append w _ _ hlen]
    simp [ih _ hdrop]

/-- Modelled from the spec: bits of one byte, little-endian within the byte
(§4.4 "little-endian within each byte"). -/
def byteToBits (b : Nat) : List Nat :=
  (List.range 8).map (fun i => b / 2 ^ i % 2)

/-- Modelled from the spec: byte string to bit string, bytes in order,
each byte little-endian (§4.4). -/
def bytesToBits (bs : List Nat) : List Nat :=
  (bs.map byteToBits).flatten

/-- Modelled from the spec: read a little-endian bit group as a number
(§4.4 fixed-width bit fields). -/
def bitsToNat (bits : List Nat) : Nat :=
  bits.foldr (fun b acc => b + 2 * acc) 0

/-- Modelled from the spec: the `w` low bits of `x`, little-endian (§4.4). -/
def natToBits (w x : Nat) : List Nat :=
  (List.range w).map (fun i => x / 2 ^ i % 2)

/-- Modelled from the spec: `decodePoly(bytes, w, reduce)` of the missing
`utils` module — unpack coefficients as `w`-bit little-endian fields,
reducing into [0, q) when `reduce` is set (§4.4). -/
def decode_poly (q : Nat) (bytes : List Nat) (w : Nat) (reduce : Bool) : List Nat :=
  (chunksPos (w - 1) (bytesToBits bytes)).map
    (fun c => if reduce then bitsToNat c % q else bitsToNat c)

/-- Modelled from the spec: `encodePoly(coeffs, w)` of the missing `utils`
module — pack each coefficient as a `w`-bit little-endian field, then group
the bit string into bytes (§4.4). -/
def encode_poly (w : Nat) (coeffs : List Nat) : List Nat :=
  (chunksPos 7 ((coeffs.map (natToBits w)).flatten)).map bitsToNat

/-- Modelled from the spec: `encodeVector(v, w)` — concatenation of the
per-polynomial encodings (§4.4). -/
def encode_vector (v : List (List Nat)) (w : Nat) : List Nat :=
  (v.map (encode_poly w)).flatten

/-- Modelled from the spec: `decodeVector(bytes, k, w, reduce)` — split the
byte string into `k` equal parts and decode each as a polynomial (§4.4). -/
def decode_vector (q : Nat) (bytes : List Nat) (k w : Nat) (reduce : Bool) :
    List (List Nat) :=
  (chunksPos (bytes.length / k - 1) bytes).map (fun c => decode_poly q c w reduce)

theorem byteToBits_zero : byteToBits 0 = List.replicate 8 0 := by decide

theorem bytesToBits_replicate_zero (a : Nat) :
    bytesToBits (List.replicate a 0) = List.replicate (8 * a) 0 := by
  unfold bytesToBits
  rw [List.map_replicate, byteToBits_zero, List.flatten_replicate_replicate,
    Nat.mul_comm]

theorem natToBits_zero (w : Nat) : natToBits w 0 = List.replicate w 0 := by
  simp [natToBits]

theorem bitsToNat_replicate_zero (w : Nat) :
    bitsToNat (List.replicate w 0) = 0 := by
  induction w with
  | zero => rfl
  | succ w ih =>
    unfold bitsToNat at ih ⊢
    rw [List.replicate_succ, List.foldr_cons, ih]

theorem encode_poly_replicate_zero (w c B : Nat) (h : 8 * B = w * c) :
    encode_poly w (List.replicate c 0) = List.replicate B 0 := by
  have h1 : (List.replicate c (0:Nat)).map (natToBits w) =
      List.replicate c (List.replicate w 0) := by
    simp [List.map_replicate, natToBits_zero]
  have h2 : (List.replicate c (List.replicate w (0:Nat))).flatten =
      List.replicate (8 * B) 0 := by
    rw [List.flatten_replicate_replicate, h, Nat.mul_comm]
  unfold encode_poly
  rw [h1, h2, show (8:Nat) * B = (7 + 1) * B from by ring, chunksPos_replicate,
    List.map_replicate, bitsToNat_replicate_zero]

theorem decode_poly_replicate_zero (q w c B : Nat) (h : 8 * B = w * c) (hw : 1 ≤ w) :
    decode_poly q (List.replicate B 0) w true = List.replicate c 0 := by
  unfold decode_poly
  have hw1 : w - 1 + 1 = w := by omega
  rw [bytesToBits_replicate_zero, h,
    show w * c = (w - 1 + 1) * c from by rw [hw1], chunksPos_replicate,
    List.map_replicate]
  rw [hw1, bitsToNat_replicate_zero]
  simp

theorem decode_vector_replicate_zero (q k : Nat) (hk : 0 < k) :
    decode_vector q (List.replicate (384 * k) 0) k 12 true =
      List.replicate k (List.replicate 256 0) := by
  unfold decode_vector
  have hlen : (List.replicate (384 * k) (0:Nat)).length / k - 1 = 383 := by
    simp [Nat.mul_div_cancel _ hk]
  rw [hlen, show (384:Nat) * k = (383 + 1) * k from by norm_num, chunksPos_replicate]
  rw [List.map_replicate, decode_poly_replicate_zero q 12 256 384 (by norm_num) (by norm_num)]

theorem encode_vector_replicate_zero (k : Nat) :
    encode_vector (List.replicate k (List.replicate 256 0)) 12 =
      List.replicate (384 * k) 0 := by
  unfold encode_vector
  rw [List.map_replicate, encode_poly_replicate_zero 12 256 384 (by norm_num),
    List.flatten_replicate_replicate, Nat.mul_comm]

/-- Canonicity of the all-zero encoded vector: decoding then re-encoding the
`384·k` zero bytes reproduces them exactly. -/
theorem canonical_zero (q k : Nat) :
    encode_vector (decode_vector q (List.replicate (384 * k) 0) k 12 true) 12 =
      List.replicate (384 * k) 0 := by
  rcases Nat.eq_zero_or_pos k with hk | hk
  · subst hk
    simp [decode_vector, encode_vector, chunksPos_nil]
  · rw [decode_vector_replicate_zero q k hk, encode_vector_replicate_zero]

/-- `polyadd` of the external `ring_lwe` collaborator: coefficient-wise
addition mod q, padding the shorter polynomial with zeros (§6 interface). -/
def polyadd (q : Nat) (a b : List Nat) : List Nat :=
  (List.range (max a.length b.length)).map (fun i => (a.getD i 0 + b.getD i 0) % q)

/-- `add_vec` of the external `module_lwe` collaborator: component-wise
polynomial addition (§6 interface). -/
def add_vec (q : Nat) (u v : List (List Nat)) : List (List Nat) :=
  List.zipWith (polyadd q) u v

/-- Polynomial multiplication of the external `module_lwe` collaborator,
under the reduction polynomial x^n + 1 (negacyclic convolution), coefficients
reduced into [0, q) (§6 interface). -/
def polymul (q n : Nat) (a b : List Nat) : List Nat :=
  (List.range n).map (fun i =>
    (((List.range n).map (fun j => ((List.range n).map (fun l =>
        if j + l = i then ((a.getD j 0 : Int) * (b.getD l 0 : Int))
        else if j + l = i + n then -((a.getD j 0 : Int) * (b.getD l 0 : Int))
        else 0)).sum)).sum % (q : Int)).toNat)

/-- Dot product of two vectors of polynomials (`mul_vec_simple` of the
external `module_lwe` collaborator), accumulated by `polyadd` (§6
interface). -/
def mul_vec_simple (q n : Nat) (r v : List (List Nat)) : List Nat :=
  (List.zipWith (polymul q n) r v).foldl (polyadd q) (List.replicate n 0)

/-- `mul_mat_vec_simple` of the external `module_lwe` collaborator:
matrix-vector product, one dot product per row (§6 interface). -/
def mul_mat_vec_simple (q n : Nat) (A : List (List (List Nat)))
    (v : List (List Nat)) : List (List Nat) :=
  A.map (fun row => mul_vec_simple q n row v)

/-- `vec_ntt` of the missing `utils` module: apply the (collaborator-supplied)
forward transform to every component. -/
def vec_ntt (ntt : List Nat → List Nat) (v : List (List Nat)) : List (List Nat) :=
  v.map ntt

theorem replicate_getD_zero (n i : Nat) : (List.replicate n (0:Nat)).getD i 0 = 0 := by
  induction n generalizing i with
  | zero => simp
  | succ n ih =>
    cases i with
    | zero => simp [List.replicate_succ]
    | succ i => rw [List.replicate_succ]; exact ih i

theorem polyadd_length (q : Nat) (a b : List Nat) :
    (polyadd q a b).length = max a.length b.length := by
  simp [polyadd]

theorem polyadd_zero_zero (q n : Nat) :
    polyadd q (List.replicate n 0) (List.replicate n 0) = List.replicate n 0 := by
  unfold polyadd
  simp [replicate_getD_zero]

theorem polymul_length (q n : Nat) (a b : List Nat) :
    (polymul q n a b).length = n := by
  simp [polymul]

theorem polymul_right_zero (q n m : Nat) (a : List Nat) :
    polymul q n a (List.replicate m 0) = List.replicate n 0 := by
  unfold polymul
  have hz : ∀ i j l : Nat,
      (if j + l = i then ((a.getD j 0 : Int) * (((List.replicate m 0).getD l 0 : Nat) : Int))
       else if j + l = i + n then -((a.getD j 0 : Int) * (((List.replicate m 0).getD l 0 : Nat) : Int))
       else 0) = 0 := by
    intro i j l
    rw [replicate_getD_zero]
    split <;> simp
  simp only [hz]
  simp

theorem polymul_left_zero (q n m : Nat) (b : List Nat) :
    polymul q n (List.replicate m 0) b = List.replicate n 0 := by
  unfold polymul
  have hz : ∀ i j l : Nat,
      (if j + l = i then ((((List.replicate m 0).getD j 0 : Nat) : Int) * (b.getD l 0 : Int))
       else if j + l = i + n then -((((List.replicate m 0).getD j 0 : Nat) : Int) * (b.getD l 0 : Int))
       else 0) = 0 := by
    intro i j l
    rw [replicate_getD_zero]
    split <;> simp
  simp only [hz]
  simp

theorem exists_of_mem_zipWith {f : List Nat → List Nat → List Nat}
    {l1 l2 : List (List Nat)} {x : List Nat}
    (h : x ∈ List.zipWith f l1 l2) : ∃ a ∈ l1, ∃ b ∈ l2, x = f a b := by
  induction l1 generalizing l2 with
  | nil => simp [List.zipWith] at h
  | cons a as ih =>
    cases l2 with
    | nil => simp [List.zipWith] at h
    | cons b bs =>
      rw [List.zipWith_cons_cons] at h
      rcases List.mem_cons.mp h with h1 | h2
      · exact ⟨a, by simp, b, by simp, h1⟩
      · obtain ⟨a', ha, b', hb, hx⟩ := ih h2
        exact ⟨a', by simp [ha], b', by simp [hb], hx⟩

theorem foldl_polyadd_length (q n : Nat) (L : List (List Nat)) (init : List Nat)
    (hinit : init.length = n) (h : ∀ x ∈ L, x.length = n) :
    (L.foldl (polyadd q) init).length = n := by
  induction L generalizing init with
  | nil => simpa using hinit
  | cons a as ih =>
    rw [List.foldl_cons]
    apply ih
    · rw [polyadd_length, hinit, h a (by simp)]; omega
    · intro x hx; exact h x (by simp [hx])

theorem foldl_polyadd_zero (q n : Nat) (L : List (List Nat))
    (h : ∀ x ∈ L, x = List.replicate n 0) :
    L.foldl (polyadd q) (List.replicate n 0) = List.replicate n 0 := by
  induction L with
  | nil => rfl
  | cons a as ih =>
    rw [List.foldl_cons, h a (by simp), polyadd_zero_zero]
    exact ih (fun x hx => h x (by simp [hx]))

theorem mul_vec_simple_length (q n : Nat) (r v : List (List Nat)) :
    (mul_vec_simple q n r v).length = n := by
  unfold mul_vec_simple
  apply foldl_polyadd_length q n _ _ (by simp)
  intro x hx
  obtain ⟨a, _, b, _, hx⟩ := exists_of_mem_zipWith hx
  rw [hx, polymul_length]

theorem mul_vec_simple_right_zero (q n k m : Nat) (r : List (List Nat)) :
    mul_vec_simple q n r (List.replicate k (List.replicate m 0)) =
      List.replicate n 0 := by
  unfold mul_vec_simple
  apply foldl_polyadd_zero
  intro x hx
  obtain ⟨a, _, b, hb, hx⟩ := exists_of_mem_zipWith hx
  rw [List.eq_of_mem_replicate hb] at hx
  rw [hx, polymul_right_zero]

theorem mul_vec_simple_left_zero (q n k m : Nat) (v : List (List Nat)) :
    mul_vec_simple q n (List.replicate k (List.replicate m 0)) v =
      List.replicate n 0 := by
  unfold mul_vec_simple
  apply foldl_polyadd_zero
  intro x hx
  obtain ⟨a, ha, b, _, hx⟩ := exists_of_mem_zipWith hx
  rw [List.eq_of_mem_replicate ha] at hx
  rw [hx, polymul_left_zero]

theorem mul_mat_vec_simple_length (q n : Nat) (A : List (List (List Nat)))
    (v : List (List Nat)) : (mul_mat_vec_simple q n A v).length = A.length := by
  simp [mul_mat_vec_simple]

theorem mul_mat_vec_simple_right_zero (q n k m : Nat) (A : List (List (List Nat))) :
    mul_mat_vec_simple q n A (List.replicate k (List.replicate m 0)) =
      List.replicate A.length (List.replicate n 0) := by
  unfold mul_mat_vec_simple
  simp only [mul_vec_simple_right_zero]
  exact List.map_const' A _

theorem add_vec_zero_zero (q k n : Nat) :
    add_vec q (List.replicate k (List.replicate n 0))
      (List.replicate k (List.replicate n 0)) =
      List.replicate k (List.replicate n 0) := by
  unfold add_vec
  rw [List.zipWith_replicate', polyadd_zero_zero]

theorem add_vec_length (q : Nat) (u v : List (List Nat)) :
    (add_vec q u v).length = min u.length v.length := by
  simp [add_vec]

/-- Modelled from the spec (§4.3): one centered-binomial coefficient — the
difference of two eta-bit popcounts taken from the bit stream at position
`2·eta·j`, reduced mod q. -/
def cbdCoeff (q eta : Nat) (bits : List Nat) (j : Nat) : Nat :=
  ((((List.range eta).map (fun t => (bits.getD (2 * eta * j + t) 0 : Int))).sum -
    ((List.range eta).map (fun t => (bits.getD (2 * eta * j + eta + t) 0 : Int))).sum)
    % (q : Int)).toNat

/-- Modelled from the spec (§4.3): `sampleCBD` — n centered-binomial
coefficients from the byte stream of one PRF call. -/
def sample_cbd (q eta n : Nat) (stream : List Nat) : List Nat :=
  (List.range n).map (cbdCoeff q eta (bytesToBits stream))

/-- Modelled from the spec (§4.3): `generate_error_vector(seed, eta, count, k, n)`
of the missing `utils` module — the i-th component polynomial is CBD-sampled
from the PRF stream keyed `seed || (count + i)`; the updated counter
`count + k` is returned alongside. -/
def generate_error_vector (p : Params) (prf : List Nat → List Nat)
    (seed : List Nat) (eta count : Nat) : List (List Nat) × Nat :=
  ((List.range p.k).map
      (fun i => sample_cbd p.q eta p.n (prf (seed ++ [count + i]))),
   count + p.k)

/-- Modelled from the spec (§4.3): `generate_polynomial(seed, eta, count, n)`
of the missing `utils` module — a single CBD polynomial keyed
`seed || count`, returning the updated counter `count + 1`. -/
def generate_polynomial (p : Params) (prf : List Nat → List Nat)
    (seed : List Nat) (eta count : Nat) : List Nat × Nat :=
  (sample_cbd p.q eta p.n (prf (seed ++ [count])), count + 1)

theorem sample_cbd_length (q eta n : Nat) (stream : List Nat) :
    (sample_cbd q eta n stream).length = n := by
  simp [sample_cbd]

theorem sample_cbd_nil (q eta n : Nat) :
    sample_cbd q eta n [] = List.replicate n 0 := by
  unfold sample_cbd cbdCoeff
  simp [bytesToBits]

/-- Modelled from the spec (§4.2): rejection-sample n coefficients uniformly
in [0, q) from 12-bit groups of the XOF stream, discarding out-of-range
groups (zero-padded if the stream is short, keeping the sampler total). -/
def rejection_sample (q n : Nat) (stream : List Nat) : List Nat :=
  let kept := (((chunksPos 11 (bytesToBits stream)).map bitsToNat).filter
    (fun v => decide (v < q))).take n
  kept ++ List.replicate (n - kept.length) 0

theorem rejection_sample_length (q n : Nat) (stream : List Nat) :
    (rejection_sample q n stream).length = n := by
  unfold rejection_sample
  simp

theorem rejection_sample_nil (q n : Nat) :
    rejection_sample q n [] = List.replicate n 0 := by
  unfold rejection_sample
  simp [bytesToBits, chunksPos_nil]

/-- Modelled from the spec (§4.2): `generate_matrix_from_seed(rho, k, n,
transpose)` of the missing `utils` module — entry (i, j) is rejection-sampled
from the XOF stream keyed `rho || j || i` (indices swapped when `transpose`,
realizing the transposed matrix). -/
def generate_matrix_from_seed (p : Params) (xof : List Nat → List Nat)
    (rho : List Nat) (transpose : Bool) : List (List (List Nat)) :=
  (List.range p.k).map (fun i => (List.range p.k).map (fun j =>
    rejection_sample p.q p.n
      (xof (rho ++ if transpose then [i % 256, j % 256] else [j % 256, i % 256]))))

/-- `rho` in `_k_pke_keygen` (ml_kem.rs:170): first 32-byte half of
`hash_g(d || k)`; `hash_g` of the missing `utils` module is the
double-width-digest hash of spec §4.2 and is passed as the parameter `g`. -/
def kg_rho (p : Params) (g : List Nat → List Nat × List Nat) (d : List Nat) :
    List Nat :=
  (g (d ++ [p.k % 256])).1

/-- `sigma` in `_k_pke_keygen` (ml_kem.rs:170): second 32-byte half of
`hash_g(d || k)`. -/
def kg_sigma (p : Params) (g : List Nat → List Nat × List Nat) (d : List Nat) :
    List Nat :=
  (g (d ++ [p.k % 256])).2

/-- `a_hat` in `_k_pke_keygen` (ml_kem.rs:173): the k×k matrix expanded from
`rho`, not transposed. -/
def kg_a_hat (p : Params) (g : List Nat → List Nat × List Nat)
    (xof : List Nat → List Nat) (d : List Nat) : List (List (List Nat)) :=
  generate_matrix_from_seed p xof (kg_rho p g d) false

/-- `s` in `_k_pke_keygen` (ml_kem.rs:176,179): drawn with `prf_count = 0`. -/
def kg_s (p : Params) (prf : List Nat → List Nat) (sigma : List Nat) :
    List (List Nat) :=
  (generate_error_vector p prf sigma p.eta_1 0).1

/-- `e` in `_k_pke_keygen` (ml_kem.rs:180): drawn with the same un-advanced
`prf_count` (= 0) — the updated counter returned by the `s` draw is bound to
`_prf_count` and never used in the source. -/
def kg_e (p : Params) (prf : List Nat → List Nat) (sigma : List Nat) :
    List (List Nat) :=
  (generate_error_vector p prf sigma p.eta_1 0).1

/-- `s_hat` in `_k_pke_keygen` (ml_kem.rs:183). -/
def kg_s_hat (p : Params) (prf ntt : List Nat → List Nat) (sigma : List Nat) :
    List (List Nat) :=
  vec_ntt ntt (kg_s p prf sigma)

/-- `e_hat` in `_k_pke_keygen` (ml_kem.rs:185). -/
def kg_e_hat (p : Params) (prf ntt : List Nat → List Nat) (sigma : List Nat) :
    List (List Nat) :=
  vec_ntt ntt (kg_e p prf sigma)

/-- `t_hat = A_hat · s_hat + e_hat` in `_k_pke_keygen` (ml_kem.rs:187). -/
def kg_t_hat (p : Params) (g : List Nat → List Nat × List Nat)
    (xof prf ntt : List Nat → List Nat) (d : List Nat) : List (List Nat) :=
  add_vec p.q
    (mul_mat_vec_simple p.q p.n (kg_a_hat p g xof d)
      (kg_s_hat p prf ntt (kg_sigma p g d)))
    (kg_e_hat p prf ntt (kg_sigma p g d))

/-- `_k_pke_keygen` (ml_kem.rs:164-195): returns
`(encode_vector(t_hat, 12) ++ rho, encode_vector(s_hat, 12))`. -/
def k_pke_keygen (p : Params) (g : List Nat → List Nat × List Nat)
    (xof prf ntt : List Nat → List Nat) (d : List Nat) : List Nat × List Nat :=
  (encode_vector (kg_t_hat p g xof prf ntt d) 12 ++ kg_rho p g d,
   encode_vector (kg_s_hat p prf ntt (kg_sigma p g d)) 12)

/-- The two panics `_k_pke_encrypt` can raise (ml_kem.rs:231-237 type check,
ml_kem.rs:248-252 modulus check). -/
inductive KPkePanic where
  | typeCheck
  | modulusCheck
deriving Repr, DecidableEq

/-- Outcome of `_k_pke_encrypt`: the returned byte vector, or a panic — the
source surfaces both validation failures by panicking, not through a result
type. -/
inductive EncResult where
  | ok (bytes : List Nat)
  | panicked (e : KPkePanic)
deriving Repr, DecidableEq

/-- `y` in `_k_pke_encrypt` (ml_kem.rs:258-259): drawn with `prf_count = 0`. -/
def enc_y (p : Params) (prf : List Nat → List Nat) (r : List Nat) :
    List (List Nat) :=
  (generate_error_vector p prf r p.eta_1 0).1

/-- `e1` in `_k_pke_encrypt` (ml_kem.rs:260): drawn with the same un-advanced
`prf_count` (= 0). -/
def enc_e1 (p : Params) (prf : List Nat → List Nat) (r : List Nat) :
    List (List Nat) :=
  (generate_error_vector p prf r p.eta_2 0).1

/-- `e2` in `_k_pke_encrypt` (ml_kem.rs:261): drawn with the same un-advanced
`prf_count` (= 0). -/
def enc_e2 (p : Params) (prf : List Nat → List Nat) (r : List Nat) : List Nat :=
  (generate_polynomial p prf r p.eta_2 0).1

/-- `_k_pke_encrypt` (ml_kem.rs:221-289): length check, canonical-encoding
check, then — the entire ciphertext computation (ml_kem.rs:266-285) being
commented out in the source — it returns the plaintext `m` unchanged.  The
noise samples `y`, `e1`, `e2` (ml_kem.rs:258-261) are drawn into dead
bindings; they are embedded as `enc_y`, `enc_e1`, `enc_e2` above and do not
influence the returned value, exactly as in the source. -/
def k_pke_encrypt (p : Params) (ek_pke m r : List Nat) : EncResult :=
  if ek_pke.length ≠ 384 * p.k + 32 then .panicked .typeCheck
  else if encode_vector
      (decode_vector p.q (ek_pke.take (ek_pke.length - 32)) p.k 12 true) 12 ≠
      ek_pke.take (ek_pke.length - 32) then .panicked .modulusCheck
  else .ok m

/-- Modelled from the spec (§4.5): `compress(x, d) = round(x·2^d / q) mod 2^d`,
round half up. -/
def compress (q d x : Nat) : Nat :=
  (2 * x * 2 ^ d + q) / (2 * q) % 2 ^ d

/-- Modelled from the spec (§4.5): `decompress(y, d) = round(y·q / 2^d) mod q`,
round half up. -/
def decompress (q d y : Nat) : Nat :=
  (2 * y * q + 2 ^ d) / 2 ^ (d + 1) % q

/-- Modelled from the spec (§4.5): coefficient-wise compression. -/
def compress_poly (q d : Nat) (a : List Nat) : List Nat :=
  a.map (compress q d)

/-- Modelled from the spec (§4.5): coefficient-wise decompression. -/
def decompress_poly (q d : Nat) (a : List Nat) : List Nat :=
  a.map (decompress q d)

/-- Coefficient-wise subtraction mod q (`v − InverseNTT(...)` of §4.6),
shorter polynomial zero-padded. -/
def polysub (q : Nat) (a b : List Nat) : List Nat :=
  (List.range (max a.length b.length)).map
    (fun i => (((a.getD i 0 : Int) - (b.getD i 0 : Int)) % (q : Int)).toNat)

/-- Modelled from the spec: `_k_pke_decrypt(dk, c)` — called by the
repository's main.rs but absent from src/; §4.6 gives it as: split `c` into
`c1`/`c2` by the §6 wire-format lengths, `u = decompress(decodeVector(c1, k,
du), du)`, `v = decompress(decodePoly(c2, dv), dv)`, `s_hat =
decodeVector(dk, k, 12, reduce)`, `mu = v − InverseNTT(s_hat · NTT(u))`,
output `encodePoly(compress(mu, 1), 1)`. -/
def k_pke_decrypt (p : Params) (ntt intt : List Nat → List Nat)
    (dk c : List Nat) : List Nat :=
  encode_poly 1 (compress_poly p.q 1
    (polysub p.q
      (decompress_poly p.q p.dv
        (decode_poly p.q (c.drop (32 * p.du * p.k)) p.dv false))
      (intt (mul_vec_simple p.q p.n
        (decode_vector p.q dk p.k 12 true)
        (vec_ntt ntt
          ((decode_vector p.q (c.take (32 * p.du * p.k)) p.k p.du false).map
            (decompress_poly p.q p.du)))))))

/-- DRBG context of the external `aes_ctr_drbg` collaborator (§6 interface):
the seed and personalization string handed to `init`. -/
structure DrbgCtx where
  seed : List Nat
  personalization : List Nat
deriving Repr, DecidableEq

/-- The personalization byte string `set_drbg_seed` hands to `DrbgCtx::init`
(ml_kem.rs:22): the two-element vector `vec![48, 0]`. -/
def set_drbg_seed_personalization : List Nat := [48, 0]

/-- `set_drbg_seed` (ml_kem.rs:21-26): instantiate the DRBG and initialize it
with the given seed and the fixed personalization string. -/
def set_drbg_seed (seed : List Nat) : DrbgCtx :=
  { seed := seed, personalization := set_drbg_seed_personalization }

/-- `Vec::resize(n, 0)` as called at ml_kem.rs:94 and ml_kem.rs:134:
truncate to n entries, or pad with zeros up to n. -/
def resize (n : Nat) (xs : List Int) : List Int :=
  xs.take n ++ List.replicate (n - xs.length) 0

theorem resize_length (n : Nat) (xs : List Int) : (resize n xs).length = n := by
  unfold resize
  rw [List.length_append, List.length_take, List.length_replicate]
  omega

/-- Coefficient-wise addition mod q over i64 coefficients (`polyadd` of the
external `ring_lwe` collaborator as used by the wrapper path, §6 interface). -/
def polyadd_int (q : Nat) (a b : List Int) : List Int :=
  (List.range (max a.length b.length)).map
    (fun i => (a.getD i 0 + b.getD i 0) % (q : Int))

/-- `add_vec` over i64 coefficients (external `module_lwe` collaborator, §6
interface). -/
def add_vec_int (q : Nat) (u v : List (List Int)) : List (List Int) :=
  List.zipWith (polyadd_int q) u v

/-- External collaborator interface consumed by the KEM wrapper (§6): uniform
matrix/small-vector/binary-polynomial sampling and the generic module-LWE
encrypt/decrypt of the `module_lwe` and `ring_lwe` crates.  Sampling and
encryption take an explicit entropy argument standing for the ambient
randomness the source requests by passing seed `None`. -/
structure ExtLattice where
  gen_uniform_matrix : Nat → Nat → Nat → Nat → List (List (List Int))
  gen_small_vector : Nat → Nat → Nat → List (List Int)
  gen_binary_poly : Nat → Nat → List Int
  mlwe_encrypt : List (List (List Int)) → List (List Int) → List Int → Nat →
    List (List Int) × List Int
  mlwe_decrypt : List (List Int) → List (List Int) → List Int → List Int
  mat_vec_mul : List (List (List Int)) → List (List Int) → List (List Int)

/-- `keygen` (ml_kem.rs:45-60): the simplified KEM key generation over the
external lattice collaborator; `r1`, `r2`, `r3` are the ambient randomness of
the three `None`-seeded sampling calls. -/
def keygen (p : Params) (ext : ExtLattice) (r1 r2 r3 : Nat) :
    (List (List (List Int)) × List (List Int)) × List (List Int) :=
  let a := ext.gen_uniform_matrix p.n p.k p.q r1
  let s := ext.gen_small_vector p.n p.k r2
  let e := ext.gen_small_vector p.n p.k r3
  let b := add_vec_int p.q (ext.mat_vec_mul a s) e
  ((a, b), s)

/-- The coefficient sequence `encapsulate` hashes and encrypts
(ml_kem.rs:93-94): the sampled binary polynomial's coefficients after
`m.resize(self.params.n, 0)`. -/
def encaps_hash_arg (p : Params) (ext : ExtLattice) (rnd : Nat) : List Int :=
  resize p.n (ext.gen_binary_poly p.n rnd)

/-- `encapsulate` (ml_kem.rs:84-99): sample a binary message polynomial,
resize it to n coefficients, encrypt it under the public key and hash it into
the shared secret.  `hash_h` of the missing `utils` module (the fixed-output
hash of spec §4.2) is passed as a parameter; `r1` is the entropy of the
message draw and `r2` that of the encryption. -/
def encapsulate (p : Params) (ext : ExtLattice) (hash_h : List Int → List Nat)
    (pk : List (List (List Int)) × List (List Int)) (r1 r2 : Nat) :
    List Nat × (List (List Int) × List Int) :=
  let m := encaps_hash_arg p ext r1
  (hash_h m, ext.mlwe_encrypt pk.1 pk.2 m r2)

/-- The coefficient sequence `decapsulate` hashes (ml_kem.rs:133-134): the
decrypted message after `m.resize(self.params.n, 0)`. -/
def decaps_hash_arg (p : Params) (ext : ExtLattice) (sk : List (List Int))
    (ct : List (List Int) × List Int) : List Int :=
  resize p.n (ext.mlwe_decrypt sk ct.1 ct.2)

/-- `decapsulate` (ml_kem.rs:124-137): decrypt the ciphertext, resize the
message to n coefficients and hash it into the shared secret. -/
def decapsulate (p : Params) (ext : ExtLattice) (hash_h : List Int → List Nat)
    (sk : List (List Int)) (ct : List (List Int) × List Int) : List Nat :=
  hash_h (decaps_hash_arg p ext sk ct)

/-- Toy instantiation of the double-width hash: both 32-byte halves zero.
Used to evaluate the embedding at concrete inputs. -/
def g0 : List Nat → List Nat × List Nat :=
  fun _ => (List.replicate 32 0, List.replicate 32 0)

/-- Toy XOF stream: empty, so rejection sampling zero-pads. -/
def xof0 : List Nat → List Nat := fun _ => []

/-- Toy PRF stream: empty, so every CBD coefficient is zero. -/
def prf0 : List Nat → List Nat := fun _ => []

theorem gev_prf0_zero (p : Params) (seed : List Nat) (eta count : Nat) :
    (generate_error_vector p prf0 seed eta count).1 =
      List.replicate p.k (List.replicate p.n 0) := by
  unfold generate_error_vector prf0
  simp [sample_cbd_nil]

theorem k_pke_encrypt_zero_ek (p : Params) (m r : List Nat) :
    k_pke_encrypt p (List.replicate (384 * p.k) 0 ++ List.replicate 32 0) m r =
      EncResult.ok m := by
  unfold k_pke_encrypt
  have hlen : (List.replicate (384 * p.k) (0:Nat) ++ List.replicate 32 0).length =
      384 * p.k + 32 := by simp
  have hsub : 384 * p.k + 32 - 32 = 384 * p.k := by omega
  have htake : (List.replicate (384 * p.k) (0:Nat) ++ List.replicate 32 0).take
      ((List.replicate (384 * p.k) (0:Nat) ++ List.replicate 32 0).length - 32) =
      List.replicate (384 * p.k) 0 := by
    rw [hlen, hsub]
    exact List.take_left' (by simp)
  rw [htake, if_neg (by simp [hlen]), if_neg (by simp [canonical_zero])]

theorem k_pke_keygen_toy_zero (d : List Nat) :
    k_pke_keygen defaultParams g0 xof0 prf0 id d =
      (List.replicate (384 * 3) 0 ++ List.replicate 32 0,
       List.replicate (384 * 3) 0) := by
  unfold k_pke_keygen kg_t_hat kg_s_hat kg_e_hat kg_s kg_e kg_a_hat kg_rho
  have hs : (generate_error_vector defaultParams prf0
      (kg_sigma defaultParams g0 d) defaultParams.eta_1 0).1 =
      List.replicate 3 (List.replicate 256 0) :=
    gev_prf0_zero defaultParams _ _ _
  rw [hs]
  have hntt : vec_ntt id (List.replicate 3 (List.replicate 256 (0:Nat))) =
      List.replicate 3 (List.replicate 256 0) := by
    unfold vec_ntt
    exact List.map_id _
  rw [hntt]
  have hmat : mul_mat_vec_simple defaultParams.q defaultParams.n
      (generate_matrix_from_seed defaultParams xof0 (g0 (d ++ [defaultParams.k % 256])).1 false)
      (List.replicate 3 (List.replicate 256 0)) =
      List.replicate 3 (List.replicate 256 0) := by
    rw [mul_mat_vec_simple_right_zero]
    have hA : (generate_matrix_from_seed defaultParams xof0
        (g0 (d ++ [defaultParams.k % 256])).1 false).length = 3 := by
      unfold generate_matrix_from_seed
      rw [List.length_map, List.length_range]
      rfl
    rw [hA]
    rfl
  rw [hmat]
  have hadd : add_vec defaultParams.q (List.replicate 3 (List.replicate 256 0))
      (List.replicate 3 (List.replicate 256 0)) =
      List.replicate 3 (List.replicate 256 0) := add_vec_zero_zero _ _ _
  rw [hadd]
  rw [encode_vector_replicate_zero]
  rfl

theorem polysub_nil_zero (q n : Nat) :
    polysub q [] (List.replicate n 0) = List.replicate n 0 := by
  unfold polysub
  simp [replicate_getD_zero]

theorem k_pke_decrypt_toy_zero_dk :
    k_pke_decrypt defaultParams id id (List.replicate (384 * 3) 0)
      (1 :: List.replicate 31 0) = List.replicate 32 0 := by
  unfold k_pke_decrypt
  have hdrop : (1 :: List.replicate 31 (0:Nat)).drop
      (32 * defaultParams.du * defaultParams.k) = [] := by
    apply List.drop_eq_nil_of_le
    simp [defaultParams]
  rw [hdrop]
  have hv : decompress_poly defaultParams.q defaultParams.dv
      (decode_poly defaultParams.q [] defaultParams.dv false) = [] := by
    simp [decompress_poly, decode_poly, bytesToBits, chunksPos_nil]
  rw [hv]
  have hsk : decode_vector defaultParams.q (List.replicate (384 * 3) 0)
      defaultParams.k 12 true = List.replicate 3 (List.replicate 256 0) := by
    rw [show defaultParams.k = 3 from rfl]
    exact decode_vector_replicate_zero _ 3 (by norm_num)
  rw [hsk]
  rw [mul_vec_simple_left_zero]
  have hintt : (id (List.replicate defaultParams.n (0:Nat))) =
      List.replicate 256 0 := rfl
  rw [hintt, polysub_nil_zero]
  have hcomp : compress_poly defaultParams.q 1 (List.replicate 256 0) =
      List.replicate 256 0 := by
    unfold compress_poly
    rw [List.map_replicate]
    norm_num [compress, defaultParams]
  rw [hcomp, encode_poly_replicate_zero 1 256 32 (by norm_num)]

theorem sum_map_const_of {α : Type} (L : List α) (f : α → Nat) (c : Nat)
    (h : ∀ x ∈ L, f x = c) : (L.map f).sum = L.length * c := by
  induction L with
  | nil => simp
  | cons a as ih =>
    rw [List.map_cons, List.sum_cons, h a (by simp),
      ih (fun x hx => h x (by simp [hx])), List.length_cons]
    ring

theorem encode_poly_length (w B : Nat) (coeffs : List Nat)
    (h : w * coeffs.length = (7 + 1) * B) : (encode_poly w coeffs).length = B := by
  unfold encode_poly
  rw [List.length_map]
  apply chunksPos_length 7 B
  rw [List.length_flatten, List.map_map]
  rw [sum_map_const_of coeffs _ w (fun x hx => by simp [natToBits])]
  rw [Nat.mul_comm]
  exact h

theorem encode_vector_length (v : List (List Nat)) (hall : ∀ x ∈ v, x.length = 256) :
    (encode_vector v 12).length = 384 * v.length := by
  unfold encode_vector
  rw [List.length_flatten, List.map_map,
    sum_map_const_of v (List.length ∘ encode_poly 12) 384
      (fun x hx => encode_poly_length 12 384 x (by rw [hall x hx]))]
  ring

theorem kg_s_hat_shape (p : Params) (prf ntt : List Nat → List Nat)
    (sigma : List Nat) (hntt : ∀ xs, (ntt xs).length = xs.length) :
    (kg_s_hat p prf ntt sigma).length = p.k ∧
    ∀ x ∈ kg_s_hat p prf ntt sigma, x.length = p.n := by
  unfold kg_s_hat vec_ntt kg_s generate_error_vector
  constructor
  · simp
  · intro x hx
    obtain ⟨y, hy, hxy⟩ := List.mem_map.mp hx
    obtain ⟨i, _, hyi⟩ := List.mem_map.mp hy
    rw [← hxy, hntt, ← hyi, sample_cbd_length]

theorem kg_t_hat_shape (p : Params) (g : List Nat → List Nat × List Nat)
    (xof prf ntt : List Nat → List Nat) (d : List Nat)
    (hntt : ∀ xs, (ntt xs).length = xs.length) :
    (kg_t_hat p g xof prf ntt d).length = p.k ∧
    ∀ x ∈ kg_t_hat p g xof prf ntt d, x.length = p.n := by
  have hmatlen : (mul_mat_vec_simple p.q p.n (kg_a_hat p g xof d)
      (kg_s_hat p prf ntt (kg_sigma p g d))).length = p.k := by
    rw [mul_mat_vec_simple_length]
    unfold kg_a_hat generate_matrix_from_seed
    simp
  have hehlen : (kg_e_hat p prf ntt (kg_sigma p g d)).length = p.k := by
    unfold kg_e_hat vec_ntt kg_e generate_error_vector
    simp
  constructor
  · unfold kg_t_hat
    rw [add_vec_length, hmatlen, hehlen]
    omega
  · intro x hx
    unfold kg_t_hat add_vec at hx
    obtain ⟨a, ha, b, hb, hx⟩ := exists_of_mem_zipWith hx
    have hal : a.length = p.n := by
      unfold mul_mat_vec_simple at ha
      obtain ⟨row, _, ha2⟩ := List.mem_map.mp ha
      rw [← ha2, mul_vec_simple_length]
    have hbl : b.length = p.n := by
      unfold kg_e_hat vec_ntt kg_e generate_error_vector at hb
      obtain ⟨y, hy, hb2⟩ := List.mem_map.mp hb
      obtain ⟨i, _, hy2⟩ := List.mem_map.mp hy
      rw [← hb2, hntt, ← hy2, sample_cbd_length]
    rw [hx, polyadd_length, hal, hbl]
    omega

theorem resize_of_length_eq (n : Nat) (xs : List Int) (h : xs.length = n) :
    resize n xs = xs := by
  unfold resize
  rw [List.take_of_length_le (by omega), h, Nat.sub_self]
  simp

theorem resize_resize (n : Nat) (xs : List Int) :
    resize n (resize n xs) = resize n xs :=
  resize_of_length_eq n _ (resize_length n xs)

/-- Toy instantiation of the external lattice collaborator, used to discharge
hypotheses of the wrapper theorems at concrete inputs: encryption carries the
message inside the ciphertext and decryption returns it. -/
def extToy : ExtLattice :=
  { gen_uniform_matrix := fun _ _ _ _ => []
    gen_small_vector := fun _ _ _ => []
    gen_binary_poly := fun _ _ => [1, 0, 1]
    mlwe_encrypt := fun _ _ m _ => ([], m)
    mlwe_decrypt := fun _ _ v => v
    mat_vec_mul := fun _ _ => [] }

/-- Toy instantiation of the fixed-output hash: the input length, as a
one-byte digest. -/
def hashToy : List Int → List Nat := fun l => [l.length % 256]

/-- C1: the claim fails on the code.  The ciphertext computation of
`_k_pke_encrypt` (ml_kem.rs:266-285) is commented out and the function
returns the input message: for every parameter set, message and randomness,
the well-formed all-zero encryption key passes the length and canonicity
checks and the returned bytes are exactly `m`, not `c1 || c2`. -/
theorem C1_encrypt_returns_input_message (p : Params) (m r : List Nat) :
    k_pke_encrypt p (List.replicate (384 * p.k) 0 ++ List.replicate 32 0) m r =
      EncResult.ok m :=
  k_pke_encrypt_zero_ek p m r

/-- C2: the K-PKE round trip fails on the code.  With deterministic
collaborator instantiations, `_k_pke_keygen([1,2,3,4])` produces the all-zero
key pair; `_k_pke_encrypt` returns the message bytes unchanged (its
ciphertext computation being commented out), and the spec-modelled
`_k_pke_decrypt` applied to that output does not recover the message. -/
theorem C2_round_trip_fails :
    k_pke_encrypt defaultParams
      (k_pke_keygen defaultParams g0 xof0 prf0 id [1, 2, 3, 4]).1
      (1 :: List.replicate 31 0) [1, 2, 3, 4] =
      EncResult.ok (1 :: List.replicate 31 0) ∧
    k_pke_decrypt defaultParams id id
      (k_pke_keygen defaultParams g0 xof0 prf0 id [1, 2, 3, 4]).2
      (1 :: List.replicate 31 0) ≠ 1 :: List.replicate 31 0 := by
  constructor
  · rw [k_pke_keygen_toy_zero]
    exact k_pke_encrypt_zero_ek defaultParams (1 :: List.replicate 31 0) [1, 2, 3, 4]
  · rw [k_pke_keygen_toy_zero, k_pke_decrypt_toy_zero_dk]
    decide

/-- C3: the claim fails on the code.  Both `s` and `e` in `_k_pke_keygen`
(ml_kem.rs:179-180) are drawn with the same nonce 0 — the advanced counter is
bound to `_prf_count` and discarded — so the two error vectors coincide
exactly; likewise `y` and `e1` in `_k_pke_encrypt` (ml_kem.rs:259-260)
coincide whenever eta_1 = eta_2 (as in the default parameter set). -/
theorem C3_nonce_reuse (p : Params) (prf : List Nat → List Nat)
    (sigma r : List Nat) :
    kg_s p prf sigma = kg_e p prf sigma ∧
    (p.eta_1 = p.eta_2 → enc_y p prf r = enc_e1 p prf r) := by
  constructor
  · rfl
  · intro h
    unfold enc_y enc_e1
    rw [h]

theorem C3_nonce_reuse_witness :
    kg_s defaultParams prf0 (List.replicate 32 0) =
      kg_e defaultParams prf0 (List.replicate 32 0) ∧
    enc_y defaultParams prf0 [1, 2, 3, 4] = enc_e1 defaultParams prf0 [1, 2, 3, 4] :=
  ⟨(C3_nonce_reuse defaultParams prf0 (List.replicate 32 0) [1, 2, 3, 4]).1,
   (C3_nonce_reuse defaultParams prf0 (List.replicate 32 0) [1, 2, 3, 4]).2 rfl⟩

/-- C4: the length check exists, but it aborts by panicking.  A wrong-length
key makes `_k_pke_encrypt` panic with the type-check message
(ml_kem.rs:231-237) — an uncontrolled abort, not the typed LengthMismatch
result the claim requires — and a correct-length key never triggers that
panic. -/
theorem C4_length_check_panics (p : Params) (ek m r : List Nat) :
    (ek.length ≠ 384 * p.k + 32 →
      k_pke_encrypt p ek m r = EncResult.panicked KPkePanic.typeCheck) ∧
    (ek.length = 384 * p.k + 32 →
      k_pke_encrypt p ek m r ≠ EncResult.panicked KPkePanic.typeCheck) := by
  constructor
  · intro h
    unfold k_pke_encrypt
    rw [if_pos h]
  · intro h
    unfold k_pke_encrypt
    rw [if_neg (by simp [h])]
    split
    · intro hc
      simp at hc
    · intro hc
      simp at hc

theorem C4_length_check_panics_witness :
    k_pke_encrypt defaultParams [] [] [] =
      EncResult.panicked KPkePanic.typeCheck ∧
    k_pke_encrypt defaultParams
        (List.replicate (384 * 3) 0 ++ List.replicate 32 0) [] [] ≠
      EncResult.panicked KPkePanic.typeCheck :=
  ⟨(C4_length_check_panics defaultParams [] [] []).1
      (by rw [List.length_nil]; decide),
   (C4_length_check_panics defaultParams
        (List.replicate (384 * 3) 0 ++ List.replicate 32 0) [] []).2
      (by rw [List.length_append, List.length_replicate, List.length_replicate]; rfl)⟩

/-- C5: for every correct-length key, `_k_pke_encrypt` raises the
modulus-check failure (the NonCanonicalEncoding rejection, ml_kem.rs:244-252)
exactly when re-encoding the decoded t_hat region fails to reproduce those
bytes; when the re-encoding reproduces them, it returns without that
failure (and, the ciphertext computation being absent, returns `m`). -/
theorem C5_canonicity_check (p : Params) (ek m r : List Nat)
    (h : ek.length = 384 * p.k + 32) :
    (k_pke_encrypt p ek m r = EncResult.panicked KPkePanic.modulusCheck ↔
      encode_vector (decode_vector p.q (ek.take (ek.length - 32)) p.k 12 true) 12 ≠
        ek.take (ek.length - 32)) ∧
    (encode_vector (decode_vector p.q (ek.take (ek.length - 32)) p.k 12 true) 12 =
        ek.take (ek.length - 32) →
      k_pke_encrypt p ek m r = EncResult.ok m) := by
  unfold k_pke_encrypt
  rw [if_neg (by simp [h])]
  constructor
  · constructor
    · intro hres
      by_cases hcan : encode_vector
          (decode_vector p.q (ek.take (ek.length - 32)) p.k 12 true) 12 =
          ek.take (ek.length - 32)
      · rw [if_neg (not_ne_iff.mpr hcan)] at hres
        exact absurd hres (by simp)
      · exact hcan
    · intro hne
      rw [if_pos hne]
  · intro hcan
    rw [if_neg (not_ne_iff.mpr hcan)]

theorem C5_canonicity_check_witness :
    (k_pke_encrypt defaultParams
        (List.replicate (384 * 3) 0 ++ List.replicate 32 0) [] [] =
        EncResult.panicked KPkePanic.modulusCheck ↔
      encode_vector (decode_vector defaultParams.q
          ((List.replicate (384 * 3) (0:Nat) ++ List.replicate 32 0).take
            ((List.replicate (384 * 3) (0:Nat) ++ List.replicate 32 0).length - 32))
          defaultParams.k 12 true) 12 ≠
        (List.replicate (384 * 3) (0:Nat) ++ List.replicate 32 0).take
          ((List.replicate (384 * 3) (0:Nat) ++ List.replicate 32 0).length - 32)) ∧
    (encode_vector (decode_vector defaultParams.q
          ((List.replicate (384 * 3) (0:Nat) ++ List.replicate 32 0).take
            ((List.replicate (384 * 3) (0:Nat) ++ List.replicate 32 0).length - 32))
          defaultParams.k 12 true) 12 =
        (List.replicate (384 * 3) (0:Nat) ++ List.replicate 32 0).take
          ((List.replicate (384 * 3) (0:Nat) ++ List.replicate 32 0).length - 32) →
      k_pke_encrypt defaultParams
          (List.replicate (384 * 3) 0 ++ List.replicate 32 0) [] [] =
        EncResult.ok []) :=
  C5_canonicity_check defaultParams
    (List.replicate (384 * 3) 0 ++ List.replicate 32 0) [] []
    (by rw [List.length_append, List.length_replicate, List.length_replicate]; rfl)

/-- C6: the claim fails on the code.  `set_drbg_seed` initializes the DRBG
with the two-byte personalization string `vec![48, 0]` (ml_kem.rs:22) — its
own comment notwithstanding — so the personalization is never at least 48
bytes, for any seed. -/
theorem C6_personalization_too_short (seed : List Nat) :
    (set_drbg_seed seed).personalization.length = 2 ∧
    ¬ 48 ≤ (set_drbg_seed seed).personalization.length := by
  constructor
  · rfl
  · intro h
    simp [set_drbg_seed, set_drbg_seed_personalization] at h

/-- C7: KEM wrapper correctness, relative to the contract of the external
module-LWE collaborator (whose encrypt/decrypt are out-of-scope per spec §1):
for keys from `keygen` and (secret, ct) from `encapsulate`, whenever the
collaborator's decryption of ct recovers the resized message that was
encrypted, `decapsulate` returns exactly the encapsulated shared secret. -/
theorem C7_kem_round_trip (p : Params) (ext : ExtLattice)
    (hash_h : List Int → List Nat) (r1 r2 r3 r4 r5 : Nat)
    (h : resize p.n (ext.mlwe_decrypt (keygen p ext r1 r2 r3).2
        (encapsulate p ext hash_h (keygen p ext r1 r2 r3).1 r4 r5).2.1
        (encapsulate p ext hash_h (keygen p ext r1 r2 r3).1 r4 r5).2.2) =
      encaps_hash_arg p ext r4) :
    decapsulate p ext hash_h (keygen p ext r1 r2 r3).2
        (encapsulate p ext hash_h (keygen p ext r1 r2 r3).1 r4 r5).2 =
      (encapsulate p ext hash_h (keygen p ext r1 r2 r3).1 r4 r5).1 := by
  unfold decapsulate decaps_hash_arg
  rw [h]
  rfl

theorem C7_kem_round_trip_witness :
    decapsulate defaultParams extToy hashToy (keygen defaultParams extToy 0 0 0).2
        (encapsulate defaultParams extToy hashToy
          (keygen defaultParams extToy 0 0 0).1 0 0).2 =
      (encapsulate defaultParams extToy hashToy
        (keygen defaultParams extToy 0 0 0).1 0 0).1 :=
  C7_kem_round_trip defaultParams extToy hashToy 0 0 0 0 0
    (by exact resize_resize 256 [1, 0, 1])

/-- C8: `_k_pke_keygen` is deterministic.  Its embedding is a pure function
of the seed `d` — every primitive it calls (hash split, matrix expansion,
PRF-keyed error sampling, NTT) is keyed entirely by values derived from `d`,
and the source requests no ambient randomness — so two invocations with
identical seeds produce byte-identical key pairs. -/
theorem C8_keygen_deterministic (p : Params)
    (g : List Nat → List Nat × List Nat) (xof prf ntt : List Nat → List Nat)
    (d1 d2 : List Nat) (h : d1 = d2) :
    k_pke_keygen p g xof prf ntt d1 = k_pke_keygen p g xof prf ntt d2 := by
  rw [h]

theorem C8_keygen_deterministic_witness :
    k_pke_keygen defaultParams g0 xof0 prf0 id [1, 2, 3, 4] =
      k_pke_keygen defaultParams g0 xof0 prf0 id [1, 2, 3, 4] :=
  C8_keygen_deterministic defaultParams g0 xof0 prf0 id [1, 2, 3, 4] [1, 2, 3, 4] rfl

/-- C9: wire format of `_k_pke_keygen` (ml_kem.rs:189-194): `ek_pke` is the
12-bit encoding of t_hat followed by rho, `384·k + 32` bytes in all, and
`dk_pke` is the 12-bit encoding of s_hat, `384·k` bytes — for ring degree
n = 256, any rank k, any seed, provided the hash's first half is 32 bytes and
the transform preserves coefficient counts. -/
theorem C9_keygen_wire_format (p : Params)
    (g : List Nat → List Nat × List Nat) (xof prf ntt : List Nat → List Nat)
    (d : List Nat) (hn : p.n = 256) (hg : (kg_rho p g d).length = 32)
    (hntt : ∀ xs, (ntt xs).length = xs.length) :
    (k_pke_keygen p g xof prf ntt d).1 =
      encode_vector (kg_t_hat p g xof prf ntt d) 12 ++ kg_rho p g d ∧
    (k_pke_keygen p g xof prf ntt d).1.length = 384 * p.k + 32 ∧
    (k_pke_keygen p g xof prf ntt d).2 =
      encode_vector (kg_s_hat p prf ntt (kg_sigma p g d)) 12 ∧
    (k_pke_keygen p g xof prf ntt d).2.length = 384 * p.k := by
  have hts := kg_t_hat_shape p g xof prf ntt d hntt
  have hss := kg_s_hat_shape p prf ntt (kg_sigma p g d) hntt
  refine ⟨rfl, ?_, rfl, ?_⟩
  · rw [show (k_pke_keygen p g xof prf ntt d).1 =
      encode_vector (kg_t_hat p g xof prf ntt d) 12 ++ kg_rho p g d from rfl]
    rw [List.length_append, hg,
      encode_vector_length _ (fun x hx => by rw [hts.2 x hx]; exact hn), hts.1]
  · rw [show (k_pke_keygen p g xof prf ntt d).2 =
      encode_vector (kg_s_hat p prf ntt (kg_sigma p g d)) 12 from rfl]
    rw [encode_vector_length _ (fun x hx => by rw [hss.2 x hx]; exact hn), hss.1]

theorem C9_keygen_wire_format_witness :
    (k_pke_keygen defaultParams g0 xof0 prf0 id [1, 2, 3, 4]).1 =
      encode_vector (kg_t_hat defaultParams g0 xof0 prf0 id [1, 2, 3, 4]) 12 ++
        kg_rho defaultParams g0 [1, 2, 3, 4] ∧
    (k_pke_keygen defaultParams g0 xof0 prf0 id [1, 2, 3, 4]).1.length =
      384 * defaultParams.k + 32 ∧
    (k_pke_keygen defaultParams g0 xof0 prf0 id [1, 2, 3, 4]).2 =
      encode_vector (kg_s_hat defaultParams prf0 id
        (kg_sigma defaultParams g0 [1, 2, 3, 4])) 12 ∧
    (k_pke_keygen defaultParams g0 xof0 prf0 id [1, 2, 3, 4]).2.length =
      384 * defaultParams.k :=
  C9_keygen_wire_format defaultParams g0 xof0 prf0 id [1, 2, 3, 4] rfl
    (by rw [show kg_rho defaultParams g0 [1, 2, 3, 4] = List.replicate 32 0 from rfl,
      List.length_replicate])
    (fun xs => rfl)

/-- C10: the shared-secret hash input always has exactly n coefficients:
`encapsulate` (ml_kem.rs:93-97) resizes the sampled binary message to n
entries before encrypting and hashing it, and `decapsulate`
(ml_kem.rs:133-136) resizes the decrypted message to n entries before
hashing, for every public key, secret key, ciphertext and randomness. -/
theorem C10_hash_input_resized (p : Params) (ext : ExtLattice)
    (hash_h : List Int → List Nat)
    (pk : List (List (List Int)) × List (List Int)) (sk : List (List Int))
    (ct : List (List Int) × List Int) (r1 r2 : Nat) :
    (encaps_hash_arg p ext r1).length = p.n ∧
    (encapsulate p ext hash_h pk r1 r2).1 = hash_h (encaps_hash_arg p ext r1) ∧
    (decaps_hash_arg p ext sk ct).length = p.n ∧
    decapsulate p ext hash_h sk ct = hash_h (decaps_hash_arg p ext sk ct) :=
  ⟨resize_length _ _, rfl, resize_length _ _, rfl⟩
